import Mathlib

/-!
Verification of the `cronch` cache core (`warcraftlogs/src/cache.rs`) and the
token loader (`src/token.rs`) against their natural-language specification.

The relational store is embedded as explicit state: a list of ledger rows and
a list of vault rows, kept in rowid order (SQLite scans an
`INTEGER PRIMARY KEY` table in rowid order, and assigns `max id + 1` to a row
inserted without an explicit id).  Timestamps (`chrono::DateTime<Utc>`) are
embedded as integers; each `Utc::now()` call becomes an explicit clock-reading
argument.  `hits : i32` is embedded as `Int` (two's-complement overflow at
2^31 hits is not modelled).  `init_db` is assumed to open the store and find
the tables (the spec's store-open precondition).  Fallible steps return
`Except Error`.
-/

namespace Cronch

/-- Byte buffers (`Vec<u8>`). -/
abbrev Bytes := List Nat

/-- Modelled from the spec (§7): the crate-level `Error` type
(`crate::error::Error` is not under `src/`): store-engine failures, codec
failures, and the recoverable `NoResponseCache` miss carrying the key. -/
inductive Error where
  | store (msg : String)
  | codec (msg : String)
  | noResponseCache (key : String)
deriving Repr, DecidableEq

/-- A row of the `query` ledger table (`struct Query` in cache.rs). -/
structure Query where
  id : Int
  query : String
  hits : Int
  time_first_request : Int
  time_last_request : Int
deriving Repr, DecidableEq

/-- A row of the `response` vault table (`struct InternalResponse`). -/
structure InternalResponse where
  id : Int
  response : Bytes
deriving Repr, DecidableEq

/-- The persistent store: the `query` and `response` tables, rows in rowid
order.  (The `token` table is created but never read or written by the core.) -/
structure DB where
  queries : List Query
  responses : List InternalResponse
deriving Repr, DecidableEq

/-- The typed in-memory wrapper `Response<T>`. -/
structure Response (α : Type) where
  id : Int
  response : α
deriving Repr, DecidableEq

/-- Modelled from the spec (§4.2): the external codecs — `serde_json`
(`to_vec` / `from_slice`) and `flate2` gzip (`compress` / `decompress` wrap
`GzEncoder` / `GzDecoder`) — taken at their interface boundary as abstract
fallible byte transforms. -/
structure Codec (α : Type) where
  serialize : α → Except Error Bytes
  deserialize : Bytes → Except Error α
  compress : Bytes → Except Error Bytes
  decompress : Bytes → Except Error Bytes

/-- `impl Default for Query`: id, query and hits are `Default::default()`;
the two timestamps are two successive `Utc::now()` calls, taken here as the
two explicit clock readings `t1` (for `time_first_request`) and `t2` (for
`time_last_request`). -/
def Query.default (t1 t2 : Int) : Query :=
  { id := 0, query := "", hits := 0
    time_first_request := t1, time_last_request := t2 }

/-- The rowid SQLite assigns to a row inserted without an explicit id into an
`INTEGER PRIMARY KEY` table: one more than the largest rowid in use. -/
def nextQueryId (db : DB) : Int :=
  (db.queries.foldl (fun m r => max m r.id) 0) + 1

/-- `SQL::select` for `Query` (`SELECT * FROM query WHERE query = (?1)`
followed by `.last()` on the row iterator): rows are scanned in rowid order
and the last matching row wins; no match is a `NoResponseCache` miss carrying
the key.  (`from_sql` row conversion cannot fail on well-typed rows, so the
`Some(Err(_))` arm is not represented.) -/
def Query.select (db : DB) (q : String) : Except Error Query :=
  match (db.queries.filter (fun r => r.query == q)).getLast? with
  | some r => .ok r
  | none => .error (.noResponseCache q)

/-- `Query::insert` (`INSERT INTO query (query, hits, time_first_request,
time_last_request) VALUES (?1, ?2, ?3, ?4)`): the id is not bound, so the
store assigns the next rowid; the row is appended in rowid order. -/
def Query.insert (self : Query) (db : DB) : DB :=
  { db with queries := db.queries ++ [{ self with id := nextQueryId db }] }

/-- `SQL::update` for `Query` (`UPDATE query SET hits = ?2,
time_last_request = ?3 WHERE id = ?1`): every row whose id matches gets the
new hit count and last-request timestamp. -/
def Query.update (db : DB) (i hits t : Int) : DB :=
  { db with queries := db.queries.map (fun r =>
      if r.id == i then { r with hits := hits, time_last_request := t } else r) }

/-- `InternalResponse::insert` (`INSERT INTO response (id, response) VALUES
(?1, ?2)`): the id is bound explicitly into an `INTEGER PRIMARY KEY` column,
so a duplicate id violates the primary-key uniqueness constraint. -/
def InternalResponse.insert (self : InternalResponse) (db : DB) :
    Except Error DB :=
  if db.responses.any (fun rr => rr.id == self.id) then
    .error (.store "UNIQUE constraint failed: response.id")
  else
    .ok { db with responses := db.responses ++ [self] }

/-- `SQL::select` for `InternalResponse` (`SELECT * FROM response WHERE id =
(?)` followed by `.last()`).  The facade passes `query.id.to_string()`; the
`id` column has INTEGER affinity, so SQLite converts the bound text back to
the integer before comparing — matching is therefore on the integer id, and
the not-found error carries the decimal string form of the id (the `query`
argument of the generic `SQL::select`). -/
def InternalResponse.select (db : DB) (i : Int) : Except Error InternalResponse :=
  match (db.responses.filter (fun rr => rr.id == i)).getLast? with
  | some r => .ok r
  | none => .error (.noResponseCache (toString i))

/-- `impl TryFrom<Response<T>> for InternalResponse`: serialize
(`to_vec`) then `compress`; the id is carried over. -/
def InternalResponse.tryFromResponse (c : Codec α) (r : Response α) :
    Except Error InternalResponse := do
  let sb ← c.serialize r.response
  let cb ← c.compress sb
  pure ⟨r.id, cb⟩

/-- `impl TryFrom<InternalResponse> for Response<T>`: `decompress` then
deserialize (`from_slice`); the id is carried over. -/
def Response.tryFromInternal (c : Codec α) (ir : InternalResponse) :
    Except Error (Response α) := do
  let bs ← c.decompress ir.response
  let v ← c.deserialize bs
  pure ⟨ir.id, v⟩

/-- The operational steps carried out by the facade's `select`, in the order
the code performs them (instrumentation for the temporal claims). -/
inductive Event where
  | openStore
  | resolveQuery
  | fetchResponse
  | recordHit
  | decode
deriving Repr, DecidableEq

/-- Outcome of one facade `select` call: the store state after the call, the
sequence of steps that executed, and the call's result. -/
structure SelectOut (α : Type) where
  db : DB
  events : List Event
  result : Except Error (Response α)

namespace Cache

/-- The facade `cache::insert`: open the store, insert a fresh ledger row
built from `Query::default()` (clock readings `t1`, `t2`) with the key,
resolve the key to learn the assigned id, encode the payload, store the
bytes under that id.  Returns the store state after the call paired with the
result; on failure the partially mutated store is kept (no rollback, §4.5). -/
def insert (c : Codec α) (db : DB) (t1 t2 : Int) (q : String) (v : α) :
    DB × Except Error Unit :=
  let db1 := Query.insert { Query.default t1 t2 with query := q } db
  match Query.select db1 q with
  | .error e => (db1, .error e)
  | .ok qr =>
    match InternalResponse.tryFromResponse c ⟨qr.id, v⟩ with
    | .error e => (db1, .error e)
    | .ok ir =>
      match ir.insert db1 with
      | .error e => (db1, .error e)
      | .ok db2 => (db2, .ok ())

/-- The facade `cache::select`: open the store, resolve the key to a ledger
row, fetch the response bytes by the resolved id (stringified), record the
hit (`hits + 1` relative to the resolved row, `time_last_request :=` the
clock reading `t`), then decode.  The hit is recorded only after the fetch
succeeds; the decode runs after the hit is recorded. -/
def select (c : Codec α) (db : DB) (t : Int) (q : String) : SelectOut α :=
  match Query.select db q with
  | .error e => ⟨db, [.openStore, .resolveQuery], .error e⟩
  | .ok qr =>
    match InternalResponse.select db qr.id with
    | .error e => ⟨db, [.openStore, .resolveQuery, .fetchResponse], .error e⟩
    | .ok ir =>
      ⟨Query.update db qr.id (qr.hits + 1) t,
       [.openStore, .resolveQuery, .fetchResponse, .recordHit, .decode],
       Response.tryFromInternal c ir⟩

end Cache

/-- One facade call, with its clock readings. -/
inductive Op (α : Type) where
  | ins (q : String) (v : α) (t1 t2 : Int)
  | sel (q : String) (t : Int)

/-- The store state after one facade call (results discarded). -/
def applyOp (c : Codec α) (db : DB) : Op α → DB
  | .ins q v t1 t2 => (Cache.insert c db t1 t2 q v).1
  | .sel q t => (Cache.select c db t q).db

/-- The store state after a sequence of facade calls. -/
def applyOps (c : Codec α) (db : DB) (ops : List (Op α)) : DB :=
  ops.foldl (applyOp c) db

/-- Whether an operation is an insert under the key `q`. -/
def Op.insertsKey (q : String) : Op α → Prop
  | .ins q' _ _ _ => q' = q
  | .sel _ _ => False

instance (q : String) (op : Op α) : Decidable (op.insertsKey q) := by
  cases op <;> simp [Op.insertsKey] <;> infer_instance

/-- A trivial codec instance (identity on byte buffers), used to exercise the
development on concrete inputs. -/
def idCodec : Codec Bytes :=
  { serialize := fun v => .ok v
    deserialize := fun b => .ok b
    compress := fun b => .ok b
    decompress := fun b => .ok b }

/-- No ledger row carries the key `q`. -/
def NoKey (q : String) (db : DB) : Prop :=
  ∀ r ∈ db.queries, r.query ≠ q

/-- The ledger invariant of the spec (§3): ordered timestamps and a
nonnegative hit count, for every row. -/
def WF (db : DB) : Prop :=
  ∀ r ∈ db.queries, r.time_first_request ≤ r.time_last_request ∧ 0 ≤ r.hits

/-- Clock sanity for one operation: an insert's two `Utc::now()` readings are
in order; a select's reading is no earlier than any timestamp already in the
ledger (the wall clock is monotone). -/
def ClockOK (db : DB) : Op α → Prop
  | .ins _ _ t1 t2 => t1 ≤ t2
  | .sel _ t => ∀ r ∈ db.queries,
      r.time_first_request ≤ t ∧ r.time_last_request ≤ t

/-- `a` occurs strictly before `b` in `l` (first occurrences). -/
def occursBefore (a b : Event) (l : List Event) : Prop :=
  a ∈ l ∧ b ∈ l ∧ l.indexOf a < l.indexOf b

instance (q : String) (db : DB) : Decidable (NoKey q db) := by
  unfold NoKey
  infer_instance

instance (db : DB) : Decidable (WF db) := by
  unfold WF
  infer_instance

instance (db : DB) (op : Op α) : Decidable (ClockOK db op) := by
  cases op <;> simp only [ClockOK] <;> infer_instance

instance (a b : Event) (l : List Event) : Decidable (occursBefore a b l) :=
  inferInstanceAs (Decidable (a ∈ l ∧ b ∈ l ∧ l.indexOf a < l.indexOf b))

/-- The facts that keep a cached entry readable: the last ledger row matching
`q` carries id `n`, the last vault row with id `n` holds the bytes `cb`, and
`n` is below the next rowid (so later inserts are assigned fresh ids). -/
def KeyInv (q : String) (n : Int) (cb : Bytes) (db : DB) : Prop :=
  (∃ r, (db.queries.filter (fun r => r.query == q)).getLast? = some r ∧
    r.id = n) ∧
  (db.responses.filter (fun rr => rr.id == n)).getLast? = some ⟨n, cb⟩ ∧
  n < nextQueryId db

end Cronch

namespace CronchToken

/-- The credential record `Token` in token.rs.  `expires_at` is `f64` in the
source; its value never influences `load` or `fmt`, so it is embedded as an
integer field. -/
structure Token where
  access_token : String
  token_type : String
  expires_in : Int
  expires_at : Int
deriving Repr, DecidableEq

/-- `Token::fmt`: `format!("{} {}", self.token_type, self.access_token)`. -/
def Token.fmt (t : Token) : String :=
  t.token_type ++ " " ++ t.access_token

/-- Outcome of `Token::load`: a rendered header value, a propagated I/O
error from open/read, or a process abort (the `todo!()` panic). -/
inductive LoadOutcome where
  | ok (s : String)
  | ioError
  | panicked
deriving Repr, DecidableEq

/-- `Token::load`: file open + read is embedded as an `Option String`
(`none` = an I/O error, returned as `Err`); the `serde_json::from_str`
parse is embedded as a function argument.  A successful parse renders the
header via `Token::fmt`; a failed parse reaches `todo!()`, which aborts the
process. -/
def Token.load (readResult : Option String) (parse : String → Option Token) :
    LoadOutcome :=
  match readResult with
  | none => .ioError
  | some contents =>
    match parse contents with
    | some t => .ok t.fmt
    | none => .panicked

end CronchToken

namespace Cronch

theorem exbind_ok (a : α) (f : α → Except Error β) :
    (Except.ok a >>= f) = f a := rfl

theorem exbind_error (e : Error) (f : α → Except Error β) :
    ((Except.error e : Except Error α) >>= f) = .error e := rfl

theorem mem_of_getLast?_eq : ∀ {l : List α} {a : α}, l.getLast? = some a → a ∈ l
  | [], _, h => by simp at h
  | [x], a, h => by
      simp [List.getLast?] at h
      simp [h]
  | x :: y :: xs, a, h => by
      rw [List.getLast?_cons_cons] at h
      exact List.mem_cons_of_mem _ (mem_of_getLast?_eq h)

theorem le_foldl_max (l : List Query) (init : Int) :
    init ≤ l.foldl (fun m r => max m r.id) init := by
  induction l generalizing init with
  | nil => simp
  | cons x xs ih =>
    simp only [List.foldl_cons]
    exact le_trans (le_max_left _ _) (ih _)

theorem mem_le_foldl_max {l : List Query} {r : Query} (h : r ∈ l) (init : Int) :
    r.id ≤ l.foldl (fun m r => max m r.id) init := by
  induction l generalizing init with
  | nil => cases h
  | cons x xs ih =>
    simp only [List.foldl_cons]
    rcases List.mem_cons.mp h with rfl | hmem
    · exact le_trans (le_max_right _ _) (le_foldl_max xs _)
    · exact ih hmem _

theorem id_lt_nextQueryId {db : DB} {r : Query} (h : r ∈ db.queries) :
    r.id < nextQueryId db := by
  have := mem_le_foldl_max h 0
  unfold nextQueryId
  omega

theorem nextQueryId_append (db : DB) (r : Query) :
    nextQueryId db ≤ nextQueryId { db with queries := db.queries ++ [r] } := by
  unfold nextQueryId
  simp only [List.foldl_append, List.foldl_cons, List.foldl_nil]
  have := le_max_left (db.queries.foldl (fun m r => max m r.id) 0) r.id
  omega

theorem foldl_max_map {l : List Query} {f : Query → Query}
    (hf : ∀ r, (f r).id = r.id) (init : Int) :
    (l.map f).foldl (fun m r => max m r.id) init
      = l.foldl (fun m r => max m r.id) init := by
  induction l generalizing init with
  | nil => rfl
  | cons x xs ih =>
    simp only [List.map_cons, List.foldl_cons, hf]
    exact ih _

theorem nextQueryId_update (db : DB) (i hits t : Int) :
    nextQueryId (Query.update db i hits t) = nextQueryId db := by
  unfold nextQueryId Query.update
  rw [foldl_max_map]
  intro r
  dsimp only
  split <;> rfl

theorem filter_map_comm {l : List α} {f : α → α} {p : α → Bool}
    (hpf : ∀ a, p (f a) = p a) :
    (l.map f).filter p = (l.filter p).map f := by
  induction l with
  | nil => rfl
  | cons x xs ih =>
    simp only [List.map_cons, List.filter_cons, hpf]
    cases hx : p x <;> simp [ih]

theorem Query.select_insert_self (db : DB) (r : Query) (q : String)
    (hq : r.query = q) :
    Query.select (Query.insert r db) q = .ok { r with id := nextQueryId db } := by
  unfold Query.select Query.insert
  have hfilter : List.filter (fun rr : Query => rr.query == q)
      [{ r with id := nextQueryId db }] = [{ r with id := nextQueryId db }] := by
    simp [hq]
  simp only [List.filter_append, hfilter, List.getLast?_concat]

theorem Query.select_insert_ne (db : DB) (r : Query) (q : String)
    (hq : r.query ≠ q) :
    Query.select (Query.insert r db) q = Query.select db q := by
  unfold Query.select Query.insert
  have hfilter : List.filter (fun rr : Query => rr.query == q)
      [{ r with id := nextQueryId db }] = [] := by
    simp [hq]
  simp only [List.filter_append, hfilter, List.append_nil]

theorem Query.select_update (db : DB) (q : String) (i hits t : Int) :
    Query.select (Query.update db i hits t) q =
      (Query.select db q).map (fun r =>
        if r.id == i then { r with hits := hits, time_last_request := t }
        else r) := by
  unfold Query.select Query.update
  rw [filter_map_comm (by intro a; cases h : (a.id == i) <;> simp [h])]
  rw [List.getLast?_map]
  cases (db.queries.filter (fun r => r.query == q)).getLast? <;>
    simp [Except.map, Option.map]

theorem InternalResponse.select_not_found {db : DB} {i : Int}
    (h : ∀ rr ∈ db.responses, rr.id ≠ i) :
    InternalResponse.select db i = .error (.noResponseCache (toString i)) := by
  unfold InternalResponse.select
  rw [show db.responses.filter (fun rr => rr.id == i) = [] from
    List.filter_eq_nil_iff.mpr (by intro a ha; simpa using h a ha)]
  rfl

theorem InternalResponse.select_append_self (db : DB) (rr : InternalResponse) :
    InternalResponse.select { db with responses := db.responses ++ [rr] } rr.id
      = .ok rr := by
  unfold InternalResponse.select
  simp only [List.filter_append]
  rw [show List.filter (fun x => x.id == rr.id) [rr] = [rr] from by simp]
  rw [List.getLast?_concat]

theorem InternalResponse.select_append_ne (db : DB) (rr : InternalResponse)
    (i : Int) (h : rr.id ≠ i) :
    InternalResponse.select { db with responses := db.responses ++ [rr] } i
      = InternalResponse.select db i := by
  unfold InternalResponse.select
  simp only [List.filter_append]
  rw [show List.filter (fun x => x.id == i) [rr] = [] from by simp [h]]
  simp

theorem InternalResponse.insert_queries {rr : InternalResponse} {db db' : DB}
    (h : rr.insert db = .ok db') : db'.queries = db.queries := by
  unfold InternalResponse.insert at h
  split at h
  · cases h
  · cases h; rfl

theorem InternalResponse.insert_responses {rr : InternalResponse} {db db' : DB}
    (h : rr.insert db = .ok db') : db'.responses = db.responses ++ [rr] := by
  unfold InternalResponse.insert at h
  split at h
  · cases h
  · cases h; rfl

theorem tryFromResponse_ok {c : Codec α} {r : Response α} {ir : InternalResponse}
    (h : InternalResponse.tryFromResponse c r = .ok ir) :
    ∃ sb cb, c.serialize r.response = .ok sb ∧ c.compress sb = .ok cb ∧
      ir = ⟨r.id, cb⟩ := by
  unfold InternalResponse.tryFromResponse at h
  cases hs : c.serialize r.response with
  | error e => rw [hs, exbind_error] at h; cases h
  | ok sb =>
    rw [hs, exbind_ok] at h
    cases hc : c.compress sb with
    | error e => rw [hc, exbind_error] at h; cases h
    | ok cb =>
      rw [hc, exbind_ok] at h
      cases h
      exact ⟨sb, cb, rfl, hc, rfl⟩

end Cronch

namespace Cronch

theorem Cache.insert_shape (c : Codec α) (db : DB) (t1 t2 : Int) (q : String)
    (v : α) :
    (Cache.insert c db t1 t2 q v).1.queries
        = db.queries ++ [⟨nextQueryId db, q, 0, t1, t2⟩] ∧
    ((Cache.insert c db t1 t2 q v).1.responses = db.responses ∨
      ∃ cb, (Cache.insert c db t1 t2 q v).1.responses
          = db.responses ++ [⟨nextQueryId db, cb⟩]) := by
  simp only [Cache.insert]
  rw [Query.select_insert_self db { Query.default t1 t2 with query := q } q rfl]
  dsimp only
  cases htf : InternalResponse.tryFromResponse c ⟨nextQueryId db, v⟩ with
  | error e => exact ⟨rfl, Or.inl rfl⟩
  | ok ir =>
    dsimp only
    cases hins : ir.insert
        (Query.insert { Query.default t1 t2 with query := q } db) with
    | error e => exact ⟨rfl, Or.inl rfl⟩
    | ok db2 =>
      dsimp only
      obtain ⟨sb, cb, _, _, rfl⟩ := tryFromResponse_ok htf
      refine ⟨(InternalResponse.insert_queries hins).trans rfl, Or.inr ⟨cb, ?_⟩⟩
      exact (InternalResponse.insert_responses hins).trans rfl

theorem Cache.insert_ok {c : Codec α} {db : DB} {t1 t2 : Int} {q : String}
    {v : α} (h : (Cache.insert c db t1 t2 q v).2 = .ok ()) :
    ∃ sb cb, c.serialize v = .ok sb ∧ c.compress sb = .ok cb ∧
      (Cache.insert c db t1 t2 q v).1
        = ⟨db.queries ++ [⟨nextQueryId db, q, 0, t1, t2⟩],
           db.responses ++ [⟨nextQueryId db, cb⟩]⟩ := by
  simp only [Cache.insert] at h ⊢
  rw [Query.select_insert_self db { Query.default t1 t2 with query := q } q rfl]
    at h ⊢
  dsimp only at h ⊢
  split at h
  · cases h
  · rename_i ir heq
    split at h
    · cases h
    · rename_i db2 heq2
      dsimp only
      obtain ⟨sb, cb, hs, hc, rfl⟩ := tryFromResponse_ok heq
      refine ⟨sb, cb, hs, hc, ?_⟩
      have hq2 := InternalResponse.insert_queries heq2
      have hr2 := InternalResponse.insert_responses heq2
      rw [show db2 = (⟨db2.queries, db2.responses⟩ : DB) from rfl, hq2, hr2]
      rfl

theorem Cache.select_db_cases (c : Codec α) (db : DB) (t : Int) (q : String) :
    (Cache.select c db t q).db = db ∨
    ∃ qr, Query.select db q = .ok qr ∧
      (Cache.select c db t q).db = Query.update db qr.id (qr.hits + 1) t := by
  simp only [Cache.select]
  split
  · left; rfl
  · rename_i qr hq
    split
    · left; rfl
    · right; exact ⟨qr, hq, rfl⟩

end Cronch

namespace Cronch

theorem noKey_insert_ne {c : Codec α} {db : DB} {q q' : String} {v : α}
    {t1 t2 : Int} (h : NoKey q db) (hne : q' ≠ q) :
    NoKey q (Cache.insert c db t1 t2 q' v).1 := by
  intro r hr
  rw [(Cache.insert_shape c db t1 t2 q' v).1] at hr
  rcases List.mem_append.mp hr with h1 | h2
  · exact h r h1
  · rw [List.mem_singleton] at h2
    subst h2
    exact hne

theorem noKey_update {db : DB} {q : String} {i hits t : Int} (h : NoKey q db) :
    NoKey q (Query.update db i hits t) := by
  intro r hr
  unfold Query.update at hr
  rcases List.mem_map.mp hr with ⟨r0, h0, rfl⟩
  have hq0 := h r0 h0
  cases hid : (r0.id == i) <;> simp [hid, hq0]

theorem noKey_applyOp {c : Codec α} {db : DB} {q : String} {op : Op α}
    (h : NoKey q db) (hop : ¬ op.insertsKey q) : NoKey q (applyOp c db op) := by
  cases op with
  | ins q' v t1 t2 => exact noKey_insert_ne h hop
  | sel q' t =>
    simp only [applyOp]
    rcases Cache.select_db_cases c db t q' with hdb | ⟨qr, _, hdb⟩
    · rw [hdb]; exact h
    · rw [hdb]; exact noKey_update h

theorem noKey_applyOps {c : Codec α} {q : String} {ops : List (Op α)} :
    ∀ {db : DB}, NoKey q db → (∀ op ∈ ops, ¬ op.insertsKey q) →
      NoKey q (applyOps c db ops) := by
  induction ops with
  | nil => intro db h _; exact h
  | cons op ops ih =>
    intro db h hops
    simp only [applyOps, List.foldl_cons]
    exact ih (noKey_applyOp h (hops op (List.mem_cons_self _ _)))
      (fun o ho => hops o (List.mem_cons_of_mem _ ho))

/-- C2: for every value `v`, serializing, compressing, then decompressing and
deserializing yields `v` again: the write-side conversion
(`TryFrom<Response<T>> for InternalResponse`, serialize then compress)
followed by the read-side conversion (`TryFrom<InternalResponse> for
Response<T>`, decompress then deserialize) is the identity, given the
component round-trips of the external codecs. -/
theorem C2_codec_roundtrip (c : Codec α)
    (hDC : ∀ b cb, c.compress b = .ok cb → c.decompress cb = .ok b)
    (hDS : ∀ (v : α) sb, c.serialize v = .ok sb → c.deserialize sb = .ok v)
    (r : Response α) (ir : InternalResponse)
    (h : InternalResponse.tryFromResponse c r = .ok ir) :
    Response.tryFromInternal c ir = .ok r := by
  obtain ⟨sb, cb, hs, hc, rfl⟩ := tryFromResponse_ok h
  unfold Response.tryFromInternal
  dsimp only
  rw [hDC sb cb hc, exbind_ok, hDS r.response sb hs, exbind_ok]
  rfl

theorem C2_codec_roundtrip_witness :
    (∀ b cb, idCodec.compress b = .ok cb → idCodec.decompress cb = .ok b) ∧
    (∀ (v : Bytes) sb, idCodec.serialize v = .ok sb →
      idCodec.deserialize sb = .ok v) ∧
    InternalResponse.tryFromResponse idCodec ⟨7, [1, 2, 3]⟩
      = .ok ⟨7, [1, 2, 3]⟩ ∧
    Response.tryFromInternal idCodec ⟨7, [1, 2, 3]⟩
      = .ok (⟨7, [1, 2, 3]⟩ : Response Bytes) :=
  ⟨fun _ _ h => by cases h; rfl,
   fun _ _ h => by cases h; rfl,
   rfl,
   C2_codec_roundtrip idCodec (fun _ _ h => by cases h; rfl)
     (fun _ _ h => by cases h; rfl) ⟨7, [1, 2, 3]⟩ ⟨7, [1, 2, 3]⟩ rfl⟩

/-- C4: selecting a key never inserted over the whole history of facade calls
(starting from a fresh store) returns exactly `NoResponseCache` carrying the
key itself — not a store error and not a codec error — and leaves the store
unchanged. -/
theorem C4_miss_signaling (c : Codec α) (ops : List (Op α)) (q : String)
    (t : Int) (hops : ∀ op ∈ ops, ¬ op.insertsKey q) :
    Cache.select c (applyOps c ⟨[], []⟩ ops) t q
      = ⟨applyOps c ⟨[], []⟩ ops, [.openStore, .resolveQuery],
         .error (.noResponseCache q)⟩ := by
  have hnk : NoKey q (applyOps c ⟨[], []⟩ ops) :=
    noKey_applyOps (by intro r hr; cases hr) hops
  have hsel : Query.select (applyOps c ⟨[], []⟩ ops) q
      = .error (.noResponseCache q) := by
    unfold Query.select
    rw [show (applyOps c ⟨[], []⟩ ops).queries.filter (fun r => r.query == q)
        = [] from List.filter_eq_nil_iff.mpr
          (by intro a ha; simpa using hnk a ha)]
    rfl
  simp only [Cache.select, hsel]

theorem C4_miss_signaling_witness :
    (∀ op ∈ [Op.ins "boss_kill_123" ([4] : Bytes) 0 0],
      ¬ op.insertsKey "never_seen") ∧
    Cache.select idCodec
        (applyOps idCodec ⟨[], []⟩ [Op.ins "boss_kill_123" [4] 0 0])
        1 "never_seen"
      = ⟨applyOps idCodec ⟨[], []⟩ [Op.ins "boss_kill_123" [4] 0 0],
         [.openStore, .resolveQuery],
         .error (.noResponseCache "never_seen")⟩ := by
  have hops : ∀ op ∈ [Op.ins "boss_kill_123" ([4] : Bytes) 0 0],
      ¬ op.insertsKey "never_seen" := by
    intro op hop
    rw [List.mem_singleton] at hop
    subst hop
    simp only [Op.insertsKey]
    decide
  exact ⟨hops, C4_miss_signaling idCodec _ "never_seen" 1 hops⟩

/-- C7: fetching a response for an id with no matching vault row returns the
miss error `NoResponseCache` carrying the decimal string form of the id (the
fetch is a total function of the store — it cannot panic or crash). -/
theorem C7_vault_miss (db : DB) (i : Int)
    (h : ∀ rr ∈ db.responses, rr.id ≠ i) :
    InternalResponse.select db i = .error (.noResponseCache (toString i)) :=
  InternalResponse.select_not_found h

theorem C7_vault_miss_witness :
    (∀ rr ∈ (⟨[⟨1, "k", 0, 0, 0⟩], [⟨1, [7]⟩]⟩ : DB).responses,
      rr.id ≠ (2 : Int)) ∧
    InternalResponse.select ⟨[⟨1, "k", 0, 0, 0⟩], [⟨1, [7]⟩]⟩ 2
      = .error (.noResponseCache (toString (2 : Int))) :=
  ⟨by decide, C7_vault_miss ⟨[⟨1, "k", 0, 0, 0⟩], [⟨1, [7]⟩]⟩ 2 (by decide)⟩

/-- C9: when the key resolves to a ledger row but no vault row matches the
resolved id (an orphan ledger record), `select` fails with the miss error and
the store is completely unchanged — in particular the resolved row's `hits`
and `time_last_request` are untouched, because the hit-recording update runs
only after the response fetch succeeds. -/
theorem C9_orphan_no_update (c : Codec α) (db : DB) (t : Int) (q : String)
    (qr : Query) (hres : Query.select db q = .ok qr)
    (horph : ∀ rr ∈ db.responses, rr.id ≠ qr.id) :
    Cache.select c db t q
      = ⟨db, [.openStore, .resolveQuery, .fetchResponse],
         .error (.noResponseCache (toString qr.id))⟩ := by
  simp only [Cache.select, hres, InternalResponse.select_not_found horph]

theorem C9_orphan_no_update_witness :
    Query.select ⟨[⟨1, "k", 5, 0, 0⟩], []⟩ "k" = .ok ⟨1, "k", 5, 0, 0⟩ ∧
    (∀ rr ∈ (⟨[⟨1, "k", 5, 0, 0⟩], []⟩ : DB).responses,
      rr.id ≠ (⟨1, "k", 5, 0, 0⟩ : Query).id) ∧
    Cache.select idCodec ⟨[⟨1, "k", 5, 0, 0⟩], []⟩ 3 "k"
      = ⟨⟨[⟨1, "k", 5, 0, 0⟩], []⟩,
         [.openStore, .resolveQuery, .fetchResponse],
         .error (.noResponseCache (toString (1 : Int)))⟩ :=
  ⟨rfl, by decide,
   C9_orphan_no_update idCodec ⟨[⟨1, "k", 5, 0, 0⟩], []⟩ 3 "k"
     ⟨1, "k", 5, 0, 0⟩ rfl (by decide)⟩

end Cronch

namespace CronchToken

/-- C10: for file contents that open and read successfully, `Token::load`
aborts the process (reaches `todo!()`) whenever the contents do not
deserialize as a `Token`, and returns the string
`"<token_type> <access_token>"` whenever they do. -/
theorem C10_token_load (contents : String) (parse : String → Option Token) :
    (parse contents = none → Token.load (some contents) parse = .panicked) ∧
    (∀ tk, parse contents = some tk →
      Token.load (some contents) parse
        = .ok (tk.token_type ++ " " ++ tk.access_token)) := by
  constructor
  · intro h
    simp only [Token.load, h]
  · intro tk h
    simp only [Token.load, h, Token.fmt]

theorem C10_token_load_witness :
    ((fun _ : String => (none : Option Token)) "x" = none ∧
      Token.load (some "x") (fun _ => none) = .panicked) ∧
    ((fun _ : String => some (⟨"abc", "Bearer", 0, 0⟩ : Token)) "x"
        = some ⟨"abc", "Bearer", 0, 0⟩ ∧
      Token.load (some "x") (fun _ => some ⟨"abc", "Bearer", 0, 0⟩)
        = .ok ("Bearer" ++ " " ++ "abc")) :=
  ⟨⟨rfl, (C10_token_load "x" (fun _ => none)).1 rfl⟩,
   ⟨rfl, (C10_token_load "x" (fun _ => some ⟨"abc", "Bearer", 0, 0⟩)).2
      ⟨"abc", "Bearer", 0, 0⟩ rfl⟩⟩

end CronchToken

namespace Cronch

/-- C3: every successful `select(q)` raises the resolved ledger row's `hits`
by exactly 1 relative to the value read at resolution time, and sets its
`time_last_request` to the call's clock reading, which (for a monotone
clock) is at least the row's `time_first_request` and at least its previous
`time_last_request`. -/
theorem C3_select_hit_recording (c : Codec α) (db : DB) (t : Int) (q : String)
    (qr : Query) (hres : Query.select db q = .ok qr)
    (hsucc : ∃ resp, (Cache.select c db t q).result = .ok resp)
    (ht1 : qr.time_first_request ≤ t) (ht2 : qr.time_last_request ≤ t) :
    ∃ qr', Query.select (Cache.select c db t q).db q = .ok qr' ∧
      qr'.hits = qr.hits + 1 ∧
      qr'.time_last_request = t ∧
      qr'.time_first_request = qr.time_first_request ∧
      qr'.time_first_request ≤ qr'.time_last_request ∧
      qr.time_last_request ≤ qr'.time_last_request := by
  obtain ⟨resp, hsucc⟩ := hsucc
  simp only [Cache.select, hres] at hsucc ⊢
  split at hsucc
  · cases hsucc
  · rename_i ir hfetch
    dsimp only at hsucc ⊢
    rw [Query.select_update db q qr.id (qr.hits + 1) t, hres]
    exact ⟨{ qr with hits := qr.hits + 1, time_last_request := t },
      by simp [Except.map], rfl, rfl, rfl, ht1, ht2⟩

theorem C3_select_hit_recording_witness :
    Query.select ⟨[⟨1, "k", 0, 0, 0⟩], [⟨1, [7]⟩]⟩ "k"
      = .ok ⟨1, "k", 0, 0, 0⟩ ∧
    (∃ resp, (Cache.select idCodec ⟨[⟨1, "k", 0, 0, 0⟩], [⟨1, [7]⟩]⟩
        5 "k").result = .ok resp) ∧
    (⟨1, "k", 0, 0, 0⟩ : Query).time_first_request ≤ 5 ∧
    (⟨1, "k", 0, 0, 0⟩ : Query).time_last_request ≤ 5 ∧
    ∃ qr', Query.select
        (Cache.select idCodec ⟨[⟨1, "k", 0, 0, 0⟩], [⟨1, [7]⟩]⟩ 5 "k").db "k"
        = .ok qr' ∧
      qr'.hits = (⟨1, "k", 0, 0, 0⟩ : Query).hits + 1 ∧
      qr'.time_last_request = 5 ∧
      qr'.time_first_request = (⟨1, "k", 0, 0, 0⟩ : Query).time_first_request ∧
      qr'.time_first_request ≤ qr'.time_last_request ∧
      (⟨1, "k", 0, 0, 0⟩ : Query).time_last_request ≤ qr'.time_last_request :=
  ⟨rfl, ⟨⟨1, [7]⟩, rfl⟩, by decide, by decide,
   C3_select_hit_recording idCodec ⟨[⟨1, "k", 0, 0, 0⟩], [⟨1, [7]⟩]⟩ 5 "k"
     ⟨1, "k", 0, 0, 0⟩ rfl ⟨⟨1, [7]⟩, rfl⟩ (by decide) (by decide)⟩

/-- C5 counterexample: a concrete successful `select` whose step trace
records the hit strictly after the response fetch, refuting the claimed
open → resolve → record-hit → fetch → decode order. -/
theorem C5_counterexample :
    (∃ resp, (Cache.select idCodec ⟨[⟨1, "k", 0, 0, 0⟩], [⟨1, [7]⟩]⟩
        5 "k").result = .ok resp) ∧
    (Cache.select idCodec ⟨[⟨1, "k", 0, 0, 0⟩], [⟨1, [7]⟩]⟩ 5 "k").events
      = [.openStore, .resolveQuery, .fetchResponse, .recordHit, .decode] ∧
    ¬ occursBefore .recordHit .fetchResponse
        (Cache.select idCodec ⟨[⟨1, "k", 0, 0, 0⟩], [⟨1, [7]⟩]⟩ 5 "k").events :=
  ⟨⟨⟨1, [7]⟩, rfl⟩, rfl, by decide⟩

/-- C5 (amended): in every successful execution of the facade's `select` the
steps occur in the order store open, query resolution, response fetch, hit
recording, decode — in particular the hit is recorded after the response
bytes are fetched from the vault, not before. -/
theorem C5_select_step_order (c : Codec α) (db : DB) (t : Int) (q : String)
    (hsucc : ∃ resp, (Cache.select c db t q).result = .ok resp) :
    (Cache.select c db t q).events
      = [.openStore, .resolveQuery, .fetchResponse, .recordHit, .decode] ∧
    occursBefore .fetchResponse .recordHit (Cache.select c db t q).events := by
  obtain ⟨resp, hsucc⟩ := hsucc
  simp only [Cache.select] at hsucc ⊢
  split at hsucc
  · cases hsucc
  · rename_i qr hq
    split at hsucc
    · cases hsucc
    · refine ⟨rfl, ?_⟩
      show occursBefore .fetchResponse .recordHit
        [.openStore, .resolveQuery, .fetchResponse, .recordHit, .decode]
      decide

theorem C5_select_step_order_witness :
    (∃ resp, (Cache.select idCodec ⟨[⟨2, "w", 1, 0, 1⟩], [⟨2, [9]⟩]⟩
        4 "w").result = .ok resp) ∧
    (Cache.select idCodec ⟨[⟨2, "w", 1, 0, 1⟩], [⟨2, [9]⟩]⟩ 4 "w").events
      = [.openStore, .resolveQuery, .fetchResponse, .recordHit, .decode] ∧
    occursBefore .fetchResponse .recordHit
      (Cache.select idCodec ⟨[⟨2, "w", 1, 0, 1⟩], [⟨2, [9]⟩]⟩ 4 "w").events :=
  ⟨⟨⟨2, [9]⟩, rfl⟩,
   C5_select_step_order idCodec ⟨[⟨2, "w", 1, 0, 1⟩], [⟨2, [9]⟩]⟩ 4 "w"
     ⟨⟨2, [9]⟩, rfl⟩⟩

/-- C6 counterexample: with clock readings 0 then 1 (the two separate
`Utc::now()` calls in `Default for Query`), the ledger row created by
`insert` has `time_first_request ≠ time_last_request`, refuting the claimed
equality of the two timestamps. -/
theorem C6_counterexample :
    (Cache.insert idCodec ⟨[], []⟩ 0 1 "k" ([2] : Bytes)).1.queries
      = [⟨1, "k", 0, 0, 1⟩] ∧
    ¬ ((⟨1, "k", 0, 0, 1⟩ : Query).time_first_request
        = (⟨1, "k", 0, 0, 1⟩ : Query).time_last_request) :=
  ⟨rfl, by decide⟩

/-- C6 (amended): for every key and store state the ledger insert appends
exactly one new row, whose `hits` is 0 and whose `time_first_request` and
`time_last_request` are the two successive clock readings taken at creation
— ordered (for a monotone clock) but not necessarily equal — and it does so
even when a row with the same key string already exists (no uniqueness
check: the appended-row equation holds for arbitrary prior contents). -/
theorem C6_ledger_insert (c : Codec α) (db : DB) (t1 t2 : Int) (q : String)
    (v : α) (h : t1 ≤ t2) :
    (Cache.insert c db t1 t2 q v).1.queries
      = db.queries ++ [⟨nextQueryId db, q, 0, t1, t2⟩] ∧
    (⟨nextQueryId db, q, 0, t1, t2⟩ : Query).hits = 0 ∧
    (⟨nextQueryId db, q, 0, t1, t2⟩ : Query).time_first_request
      ≤ (⟨nextQueryId db, q, 0, t1, t2⟩ : Query).time_last_request :=
  ⟨(Cache.insert_shape c db t1 t2 q v).1, rfl, h⟩

theorem C6_ledger_insert_witness :
    ((0 : Int) ≤ 1) ∧
    (Cache.insert idCodec ⟨[⟨1, "k", 3, 0, 0⟩], [⟨1, [9]⟩]⟩ 0 1 "k"
        ([2] : Bytes)).1.queries
      = [⟨1, "k", 3, 0, 0⟩] ++ [⟨2, "k", 0, 0, 1⟩] ∧
    (⟨2, "k", 0, 0, 1⟩ : Query).hits = 0 ∧
    (⟨2, "k", 0, 0, 1⟩ : Query).time_first_request
      ≤ (⟨2, "k", 0, 0, 1⟩ : Query).time_last_request :=
  ⟨by decide,
   (C6_ledger_insert idCodec ⟨[⟨1, "k", 3, 0, 0⟩], [⟨1, [9]⟩]⟩ 0 1 "k"
     [2] (by decide)).1,
   rfl, by decide⟩

end Cronch

namespace Cronch

/-- C8: each facade operation (insert or select) preserves the ledger
invariant of §3 — every row has `time_first_request ≤ time_last_request`
and a nonnegative hit count — given sane clock readings (insert's two
readings are ordered; select's reading is no earlier than the timestamps
already recorded). -/
theorem C8_invariant_preserved (c : Codec α) (db : DB) (op : Op α)
    (hwf : WF db) (hclock : ClockOK db op) : WF (applyOp c db op) := by
  cases op with
  | ins q v t1 t2 =>
    have ht : t1 ≤ t2 := hclock
    intro r hr
    simp only [applyOp] at hr
    rw [(Cache.insert_shape c db t1 t2 q v).1] at hr
    rcases List.mem_append.mp hr with h1 | h2
    · exact hwf r h1
    · rw [List.mem_singleton] at h2
      subst h2
      exact ⟨ht, le_refl 0⟩
  | sel q t =>
    have hclk : ∀ r ∈ db.queries,
        r.time_first_request ≤ t ∧ r.time_last_request ≤ t := hclock
    intro r hr
    simp only [applyOp] at hr
    rcases Cache.select_db_cases c db t q with hdb | ⟨qr, hq, hdb⟩
    · rw [hdb] at hr
      exact hwf r hr
    · rw [hdb] at hr
      unfold Query.update at hr
      rcases List.mem_map.mp hr with ⟨r0, h0, rfl⟩
      have hqr : qr ∈ db.queries := by
        unfold Query.select at hq
        cases hlast : (db.queries.filter (fun r => r.query == q)).getLast? with
        | none => rw [hlast] at hq; cases hq
        | some r1 =>
          rw [hlast] at hq
          cases hq
          exact List.mem_of_mem_filter (mem_of_getLast?_eq hlast)
      have hqrwf := hwf qr hqr
      have h0wf := hwf r0 h0
      have h0clk := hclk r0 h0
      split
      · refine ⟨h0clk.1, ?_⟩
        show (0 : Int) ≤ qr.hits + 1
        have := hqrwf.2
        omega
      · exact h0wf

theorem C8_invariant_preserved_witness :
    WF ⟨[⟨1, "k", 0, 0, 0⟩], [⟨1, [7]⟩]⟩ ∧
    ClockOK ⟨[⟨1, "k", 0, 0, 0⟩], [⟨1, [7]⟩]⟩ (Op.sel "k" 5 : Op Bytes) ∧
    WF (applyOp idCodec ⟨[⟨1, "k", 0, 0, 0⟩], [⟨1, [7]⟩]⟩
      (Op.sel "k" 5 : Op Bytes)) :=
  ⟨by decide, by decide,
   C8_invariant_preserved idCodec ⟨[⟨1, "k", 0, 0, 0⟩], [⟨1, [7]⟩]⟩
     (Op.sel "k" 5) (by decide) (by decide)⟩

end Cronch

namespace Cronch

theorem nextQueryId_append_le (db : DB) (r : Query) (db2 : DB)
    (h : db2.queries = db.queries ++ [r]) :
    nextQueryId db ≤ nextQueryId db2 := by
  unfold nextQueryId
  rw [h]
  simp only [List.foldl_append, List.foldl_cons, List.foldl_nil]
  have := le_max_left (db.queries.foldl (fun m r => max m r.id) 0) r.id
  omega

theorem keyInv_after_insert (db : DB) (q : String) (t1 t2 : Int) (cb : Bytes) :
    KeyInv q (nextQueryId db) cb
      ⟨db.queries ++ [⟨nextQueryId db, q, 0, t1, t2⟩],
       db.responses ++ [⟨nextQueryId db, cb⟩]⟩ := by
  refine ⟨⟨⟨nextQueryId db, q, 0, t1, t2⟩, ?_, rfl⟩, ?_, ?_⟩
  · have hf : List.filter (fun r : Query => r.query == q)
        [⟨nextQueryId db, q, 0, t1, t2⟩] = [⟨nextQueryId db, q, 0, t1, t2⟩] := by
      simp
    simp only [List.filter_append, hf, List.getLast?_concat]
  · have hf : List.filter (fun rr : InternalResponse => rr.id == nextQueryId db)
        [⟨nextQueryId db, cb⟩] = [⟨nextQueryId db, cb⟩] := by
      simp
    simp only [List.filter_append, hf, List.getLast?_concat]
  · exact id_lt_nextQueryId
      (show (⟨nextQueryId db, q, 0, t1, t2⟩ : Query) ∈
        (⟨db.queries ++ [⟨nextQueryId db, q, 0, t1, t2⟩],
          db.responses ++ [⟨nextQueryId db, cb⟩]⟩ : DB).queries from
        List.mem_append_right _ (List.mem_singleton_self _))

theorem keyInv_applyOp {c : Codec α} {db : DB} {q : String} {n : Int}
    {cb : Bytes} {op : Op α} (h : KeyInv q n cb db)
    (hop : ¬ op.insertsKey q) : KeyInv q n cb (applyOp c db op) := by
  obtain ⟨⟨rq, hrq, hrqid⟩, hresp, hn⟩ := h
  cases op with
  | ins q' v t1 t2 =>
    have hne : q' ≠ q := hop
    simp only [applyOp]
    obtain ⟨hqs, hrs⟩ := Cache.insert_shape c db t1 t2 q' v
    refine ⟨⟨rq, ?_, hrqid⟩, ?_, ?_⟩
    · rw [hqs]
      have hf : List.filter (fun r : Query => r.query == q)
          [⟨nextQueryId db, q', 0, t1, t2⟩] = [] := by
        simp [hne]
      simp only [List.filter_append, hf, List.append_nil]
      exact hrq
    · rcases hrs with hrs | ⟨cb', hrs⟩
      · rw [hrs]
        exact hresp
      · rw [hrs]
        have hne2 : nextQueryId db ≠ n := by omega
        have hf : List.filter (fun rr : InternalResponse => rr.id == n)
            [⟨nextQueryId db, cb'⟩] = [] := by
          simp [hne2]
        simp only [List.filter_append, hf, List.append_nil]
        exact hresp
    · exact lt_of_lt_of_le hn
        (nextQueryId_append_le db ⟨nextQueryId db, q', 0, t1, t2⟩ _ hqs)
  | sel q' t =>
    simp only [applyOp]
    rcases Cache.select_db_cases c db t q' with hdb | ⟨qr, hq, hdb⟩
    · rw [hdb]
      exact ⟨⟨rq, hrq, hrqid⟩, hresp, hn⟩
    · rw [hdb]
      refine ⟨?_, hresp, ?_⟩
      · refine ⟨(fun r : Query => if r.id == qr.id
            then { r with hits := qr.hits + 1, time_last_request := t }
            else r) rq, ?_, ?_⟩
        · unfold Query.update
          rw [filter_map_comm (by intro a; cases h2 : (a.id == qr.id) <;>
            simp [h2]), List.getLast?_map, hrq]
          rfl
        · show (if rq.id == qr.id
              then { rq with hits := qr.hits + 1, time_last_request := t }
              else rq).id = n
          split
          · exact hrqid
          · exact hrqid
      · rw [nextQueryId_update]
        exact hn

theorem keyInv_applyOps {c : Codec α} {q : String} {n : Int} {cb : Bytes}
    {ops : List (Op α)} :
    ∀ {db : DB}, KeyInv q n cb db → (∀ op ∈ ops, ¬ op.insertsKey q) →
      KeyInv q n cb (applyOps c db ops) := by
  induction ops with
  | nil => intro db h _; exact h
  | cons op ops ih =>
    intro db h hops
    simp only [applyOps, List.foldl_cons]
    exact ih (keyInv_applyOp h (hops op (List.mem_cons_self _ _)))
      (fun o ho => hops o (List.mem_cons_of_mem _ ho))

theorem keyInv_select {c : Codec α} {db : DB} {q : String} {n : Int}
    {cb sb : Bytes} {v : α} (t : Int) (h : KeyInv q n cb db)
    (hdc : c.decompress cb = .ok sb) (hds : c.deserialize sb = .ok v) :
    ∃ resp, (Cache.select c db t q).result = .ok resp ∧ resp.response = v := by
  obtain ⟨⟨rq, hrq, hrqid⟩, hresp, hn⟩ := h
  have hsel : Query.select db q = .ok rq := by
    unfold Query.select
    rw [hrq]
  have hfetch : InternalResponse.select db rq.id = .ok ⟨n, cb⟩ := by
    unfold InternalResponse.select
    rw [hrqid, hresp]
  simp only [Cache.select, hsel, hfetch]
  refine ⟨⟨n, v⟩, ?_, rfl⟩
  unfold Response.tryFromInternal
  dsimp only
  rw [hdc, exbind_ok, hds, exbind_ok]
  rfl

/-- C1: if `insert(q, v)` succeeds, then after any further facade calls none
of which insert under the same key `q`, `select(q)` succeeds and the returned
`Response`'s value field equals `v` (given the round-trip contracts of the
external serializer and compressor). -/
theorem C1_write_then_read (c : Codec α) (db0 : DB) (t1 t2 t : Int)
    (q : String) (v : α) (ops : List (Op α))
    (hDC : ∀ b cb, c.compress b = .ok cb → c.decompress cb = .ok b)
    (hDS : ∀ (w : α) sb, c.serialize w = .ok sb → c.deserialize sb = .ok w)
    (hins : (Cache.insert c db0 t1 t2 q v).2 = .ok ())
    (hops : ∀ op ∈ ops, ¬ op.insertsKey q) :
    ∃ resp, (Cache.select c
        (applyOps c (Cache.insert c db0 t1 t2 q v).1 ops) t q).result
      = .ok resp ∧ resp.response = v := by
  obtain ⟨sb, cb, hs, hc, hshape⟩ := Cache.insert_ok hins
  have hinv0 : KeyInv q (nextQueryId db0) cb
      (Cache.insert c db0 t1 t2 q v).1 := by
    rw [hshape]
    exact keyInv_after_insert db0 q t1 t2 cb
  exact keyInv_select t (keyInv_applyOps hinv0 hops) (hDC sb cb hc)
    (hDS v sb hs)

theorem C1_write_then_read_witness :
    (∀ b cb, idCodec.compress b = .ok cb → idCodec.decompress cb = .ok b) ∧
    (∀ (w : Bytes) sb, idCodec.serialize w = .ok sb →
      idCodec.deserialize sb = .ok w) ∧
    (Cache.insert idCodec ⟨[], []⟩ 0 0 "k" ([3] : Bytes)).2 = .ok () ∧
    (∀ op ∈ [Op.ins "other" ([9] : Bytes) 0 0, Op.sel "k" 1],
      ¬ op.insertsKey "k") ∧
    ∃ resp, (Cache.select idCodec
        (applyOps idCodec (Cache.insert idCodec ⟨[], []⟩ 0 0 "k" [3]).1
          [Op.ins "other" [9] 0 0, Op.sel "k" 1]) 2 "k").result
      = .ok resp ∧ resp.response = ([3] : Bytes) := by
  have hops : ∀ op ∈ [Op.ins "other" ([9] : Bytes) 0 0, Op.sel "k" 1],
      ¬ op.insertsKey "k" := by
    intro op hop
    rcases List.mem_cons.mp hop with rfl | hop
    · show ¬ ("other" = "k")
      decide
    · rw [List.mem_singleton] at hop
      subst hop
      exact id
  exact ⟨fun _ _ h => by cases h; rfl,
    fun _ _ h => by cases h; rfl,
    rfl, hops,
    C1_write_then_read idCodec ⟨[], []⟩ 0 0 2 "k" [3]
      [Op.ins "other" [9] 0 0, Op.sel "k" 1]
      (fun _ _ h => by cases h; rfl) (fun _ _ h => by cases h; rfl)
      rfl hops⟩

end Cronch
